import Mathlib

/-!
Verification of the 2D visibility-polygon (shadow-casting) engine in
`lighting.py`.

The source operates on floating-point coordinates; the embedding uses exact
rationals (`ℚ`), so the real-valued geometry is represented faithfully and no
rounding occurs.  Pure functions of the source (`find_walls`,
`find_endpoints`, `cast_rays`, `get_intersection`, the resolver loop of
`update_light`) are translated into Lean functions below; fallible lookups
(Python `KeyError` / `IndexError`) are modelled with `Option`.

The helper module `geometry` (functions `calculate_angle`, `distance_2d`,
`move_along_vector`, `quadrant`) and the constants `SCREEN_W`/`SCREEN_H` from
`main` are part of the repository but absent from the provided sources; they
are modelled from the spec as an abstract geometry parameter (`GeomModel`)
plus, for concrete evaluations, one computable instance (`specGeom`).
-/

/-- A 2D point with exact rational coordinates. -/
abbrev Point : Type := ℚ × ℚ

/-- `Light.cross` from the source: the 2D cross product of two points
(used here, as in the source, as the basic orientation primitive). -/
def cross (a b : Point) : ℚ := a.1 * b.2 - a.2 * b.1

/-- Orientation of `r` relative to the directed line `p → q`:
`cross (q - p) (r - p)`. -/
def orient (p q r : Point) : ℚ :=
  cross (q.1 - p.1, q.2 - p.2) (r.1 - p.1, r.2 - p.2)

/-- Models shapely's `LineString.crosses` for two straight two-point
segments (the only shape the source builds): the segments cross iff their
interiors intersect in a single point, which for straight segments means each
segment's endpoints lie strictly on opposite sides of the other segment's
line.  Touching at an endpoint, or collinear overlap, is not a crossing
(DE-9IM: the interiors must meet with dimension 0). -/
def properCross (p1 p2 q1 q2 : Point) : Bool :=
  decide (orient p1 p2 q1 * orient p1 p2 q2 < 0 ∧
          orient q1 q2 p1 * orient q1 q2 p2 < 0)

/-- `Light.get_intersection` from the source, verbatim: the parametric
line-line intersection of segment `p1 p2` with segment `p3 p4`.
(`ℚ` division is total; the resolver only calls this with a non-zero
denominator, see the parallel-segment theorem.) -/
def get_intersection (p1 p2 p3 p4 : Point) : Point :=
  let x_0 := p1.2 - p3.2
  let x_1 := p4.2 - p3.2
  let x_2 := p1.1 - p3.1
  let x_3 := p2.1 - p1.1
  let x_4 := p2.2 - p1.2
  let x_5 := p4.1 - p3.1
  let s := (x_5 * x_0 - x_1 * x_2) / (x_1 * x_3 - x_5 * x_4)
  (p1.1 + s * x_3, p1.2 + s * x_4)

/-- The denominator of the parametric intersection formula in
`Light.get_intersection` (`x_1 * x_3 - x_5 * x_4`). -/
def interDenom (p1 p2 p3 p4 : Point) : ℚ :=
  (p4.2 - p3.2) * (p2.1 - p1.1) - (p4.1 - p3.1) * (p2.2 - p1.2)

/-- `Wall` from the source: an occluding segment with endpoints `a`, `b` and
a stable id (the source draws ids from a global counter; the builder below
assigns them as list positions, which preserves distinctness and order). -/
structure Wall where
  id : Nat
  a : Point
  b : Point
deriving DecidableEq, Repr

/-- The centroid of a wall's `LineString`: for a two-point shapely
`LineString` this is the midpoint of the segment. -/
def Wall.centroid (w : Wall) : Point :=
  ((w.a.1 + w.b.1) / 2, (w.a.2 + w.b.2) / 2)

/-- A ray as the source builds it: a Python tuple `(origin, target)` (length
2, `tag = none`) or `(origin, target, begins, ends)` (length 4,
`tag = some (begins, ends)`).  Keeping the arity in the value mirrors Python
tuple equality: a 2-tuple never equals a 4-tuple. -/
structure Ray where
  a : Point
  b : Point
  tag : Option (Option Nat × Option Nat)
deriving DecidableEq, Repr

/-- `Endpoint` from the source: a deduplicated wall-endpoint position with
the id of the wall it begins (`position = wall.a`) and of the wall it ends
(`position = wall.b`), each possibly absent. -/
structure Endpoint where
  position : Point
  begins : Option Nat
  ends : Option Nat
deriving DecidableEq, Repr

/-! ## Wall Builder (`Light.find_walls`) -/

/-- The edge list of one obstacle: one edge per consecutive point pair plus
the closing edge `(points[-1], points[0])`; an empty point list makes the
source raise `IndexError` on `points[-1]`, modelled as `none`. -/
def closedEdges : List Point → Option (List (Point × Point))
  | [] => none
  | p :: tl => some ((List.zip (p :: tl) tl) ++ [((p :: tl).getLastD p, p)])

/-- Edges of all obstacles, in obstacle order. -/
def obstacleEdges : List (List Point) → Option (List (Point × Point))
  | [] => some []
  | ps :: rest => do
      let es ← closedEdges ps
      let rest' ← obstacleEdges rest
      pure (es ++ rest')

/-- `Light.find_walls`: the four screen borders (built from the two screen
extents) followed by every obstacle edge, each turned into a `Wall`; no
deduplication of coincident edges is performed.  Ids are assigned in
construction order. -/
def find_walls (screenH screenW : ℚ) (obstacles : List (List Point)) :
    Option (List Wall) := do
  let borders : List (Point × Point) :=
    [((screenH, 0), (screenH, screenW)),
     ((screenH, screenW), (0, screenW)),
     ((0, screenW), (0, 0)),
     ((0, 0), (screenH, 0))]
  let es ← obstacleEdges obstacles
  pure ((borders ++ es).enum.map (fun pr => ⟨pr.1, pr.2.1, pr.2.2⟩))

/-! ## Endpoint Index (`Light.find_endpoints`) -/

/-- All wall endings in visiting order (`wall.a` then `wall.b`, per wall). -/
def allEndings (walls : List Wall) : List Point :=
  (walls.map (fun w => [w.a, w.b])).flatten

/-- The first pass of `find_endpoints`: keep the first occurrence of each
position (dedup by exact coordinate equality). -/
def visitEndings : List Point → List Point → List Point
  | visited, [] => visited
  | visited, p :: ps =>
      if p ∈ visited then visitEndings visited ps
      else visitEndings (visited ++ [p]) ps

/-- One wall of the second pass of `find_endpoints`: a wall with `a = p`
overwrites the `begins` slot, otherwise (`elif`) a wall with `b = p`
overwrites the `ends` slot. -/
def slotStep (p : Point) (acc : Option Nat × Option Nat) (w : Wall) :
    Option Nat × Option Nat :=
  if p = w.a then (some w.id, acc.2)
  else if p = w.b then (acc.1, some w.id)
  else acc

/-- The second pass of `find_endpoints` for one position: walk all walls,
updating the two slots — the last processed matching wall wins each slot. -/
def assignSlots (walls : List Wall) (p : Point) : Option Nat × Option Nat :=
  walls.foldl (slotStep p) (none, none)

/-- `Light.find_endpoints`: one `Endpoint` per distinct ending position, with
the begin/end wall ids from the second pass. -/
def find_endpoints (walls : List Wall) : List Endpoint :=
  (visitEndings [] (allEndings walls)).map
    (fun p => ⟨p, (assignSlots walls p).1, (assignSlots walls p).2⟩)

/-! ## Spec-modelled geometry helpers

Modelled from the spec: `calculate_angle`, `distance_2d`,
`move_along_vector` and `quadrant` live in the repository's `geometry`
module, which is not among the provided sources.  The spec describes them as
the angle of a point around an origin (used only for sorting and
comparisons), the distance between two points (used only in comparisons with
each other and with the light's range), the point at a given angle and range
from a start point, and the quadrant of a point relative to the origin's
axes.  They are kept abstract in a structure so the theorems hold for every
realisation. -/

/-- `Quadrant` from the repository's `geometry` module (modelled from the
spec: one of four angular regions around the origin). -/
inductive Quadrant where
  | UL : Quadrant
  | UR : Quadrant
  | LL : Quadrant
  | LR : Quadrant
deriving DecidableEq, Repr

/-- Modelled from the spec: the abstract interface of the missing `geometry`
module.  `ang o p` is the angle of `p` around `o` (any order-faithful
rational encoding), `dist a b` the distance (any order-faithful encoding),
`mav o r t` the `move_along_vector` target point, `quad p o` the quadrant of
`p` relative to `o`. -/
structure GeomModel where
  ang : Point → Point → ℚ
  dist : Point → Point → ℚ
  mav : Point → ℚ → ℚ → Point
  quad : Point → Point → Quadrant

/-! ## Sorting by key

Python's `list.sort(key=...)` is a stable sort by the key; a stable sort's
output is uniquely determined, so insertion sort reproduces it exactly. -/

/-- Key-based comparison used by the Python `sort(key=...)` calls. -/
def keyLE {α : Type} (key : α → ℚ) : α → α → Prop := fun x y => key x ≤ key y

instance {α : Type} (key : α → ℚ) : DecidableRel (keyLE key) :=
  fun x y => inferInstanceAs (Decidable (key x ≤ key y))

/-- Python `list.sort(key=...)`: stable sort by a rational key. -/
def sortByKey {α : Type} (key : α → ℚ) (l : List α) : List α :=
  List.insertionSort (keyLE key) l

/-! ## Ray Caster (`Light.cast_rays`) -/

/-- Lookup in the source's `self.walls` dict (keyed by `wall.id`). -/
def wallById (walls : List Wall) (i : Nat) : Option Wall :=
  walls.find? (fun w => w.id == i)

/-- The angular shift `angle_a = 0.0001` for the corner-peeking rays. -/
def angleShift : ℚ := 1 / 10000

/-- One iteration of `cast_rays`' endpoint loop.  The running blocking-edge
state is `Option (Nat × ℚ)`: the source keeps `edge` and `edge_distance` in
two variables, but `edge_distance` is only ever read while `edge` is set, and
both are written together, so they are bundled.  The unconditional
`walls[ends]` / `walls[begins]` dict lookups are modelled with `Option`
(`none` = `KeyError`); the result is the updated blocking-edge state and ray
list. -/
def castStep (G : GeomModel) (walls : List Wall) (origin : Point)
    (maxRange : ℚ) (e : Endpoint) (edge : Option (Nat × ℚ))
    (rays : List Ray) : Option (Option (Nat × ℚ) × List Ray) :=
  if G.dist origin e.position > maxRange then
    -- omit redundant ray-cast
    some (edge, rays)
  else
    let position := e.position
    let angle := G.ang origin position
    let ray : Ray := ⟨origin, position, some (e.begins, e.ends)⟩
    let enter : Bool :=
      match edge with
      | none => true
      | some (eid, edist) =>
          e.begins == some eid || decide (G.dist position origin < edist)
    if enter then
      match e.ends with
      | none => none
      | some endsId =>
        match wallById walls endsId with
        | none => none
        | some wEnds =>
          let first_distance := G.dist position origin
          let second_vertex := wEnds.a
          let edge' : Option (Nat × ℚ) :=
            if G.ang origin second_vertex > angle then
              some (endsId,
                    max first_distance (G.dist second_vertex origin))
            else none
          let rays1 := rays ++ [ray]
          let end_a := G.mav origin maxRange (-angle + angleShift)
          let end_b := G.mav origin maxRange (-angle - angleShift)
          match e.begins with
          | none => none
          | some beginsId =>
            match wallById walls beginsId with
            | none => none
            | some wBegins =>
              let next_edge_end := G.ang origin wBegins.b
              let this_edge_begin := G.ang origin wEnds.a
              -- per-quadrant offset-ray selection, branch for branch as in
              -- the source (in the UL branch both conditions write
              -- `offset_ray_b`, the second overwriting the first)
              let offset_ray_a : Option Point :=
                match G.quad position origin with
                | Quadrant.UL => none
                | Quadrant.UR =>
                    if next_edge_end > angle then some end_a else none
                | Quadrant.LL =>
                    if next_edge_end > angle then some end_a else none
                | Quadrant.LR =>
                    if this_edge_begin > angle then some end_a else none
              let offset_ray_b : Option Point :=
                match G.quad position origin with
                | Quadrant.UL =>
                    if this_edge_begin < angle then some end_b
                    else if next_edge_end > angle then some end_a
                    else none
                | Quadrant.UR =>
                    if this_edge_begin < angle then some end_b else none
                | Quadrant.LL =>
                    if this_edge_begin < angle then some end_b else none
                | Quadrant.LR =>
                    if next_edge_end < angle then some end_b else none
              let rays2 :=
                match offset_ray_a with
                | none => rays1
                | some pt => rays1 ++ [⟨origin, pt, some (e.begins, e.ends)⟩]
              let rays3 :=
                match offset_ray_b with
                | none => rays2
                | some pt => rays2 ++ [⟨origin, pt, some (e.begins, e.ends)⟩]
              -- temporary fix for the lower-corner TODO: the membership
              -- test compares a 2-tuple, the appended ray is a 4-tuple
              let rays4 :=
                if (⟨origin, ((0 : ℚ), (0 : ℚ)), none⟩ : Ray) ∈ rays3 then
                  rays3
                else
                  rays3 ++ [⟨origin, ((0 : ℚ), (0 : ℚ)), some (none, none)⟩]
              some (edge', rays4)
    else
      some (edge, rays)

/-- `cast_rays`' endpoint loop: process the angle-sorted endpoints in order,
threading the blocking-edge state; a failed dict lookup aborts. -/
def castLoop (G : GeomModel) (walls : List Wall) (origin : Point)
    (maxRange : ℚ) :
    List Endpoint → Option (Nat × ℚ) → List Ray → Option (List Ray)
  | [], _, rays => some rays
  | e :: rest, edge, rays =>
    match castStep G walls origin maxRange e edge rays with
    | none => none
    | some (edge', rays') => castLoop G walls origin maxRange rest edge' rays'

/-- `Light.cast_rays`: emit primary and corner-peeking rays for every
endpoint within range, starting with no tracked blocking edge. -/
def cast_rays (G : GeomModel) (walls : List Wall) (endpoints : List Endpoint)
    (origin : Point) (maxRange : ℚ) : Option (List Ray) :=
  castLoop G walls origin maxRange endpoints none []

/-! ## Intersection Resolver (`Light.update_light`, lines 229-252) -/

/-- `wall.id not in (r3, r4)` from the source, negated: does the wall id hit
one of the ray's generating-wall slots?  A 2-tuple ray has `r3 = r4 = None`,
which never equals an integer id. -/
def genHit (r : Ray) (i : Nat) : Bool :=
  match r.tag with
  | none => false
  | some (r3, r4) => r3 == some i || r4 == some i

/-- The wall the resolver picks for a ray: the first wall in the given
(distance-sorted) list whose id is not a generating-wall id of the ray and
whose segment strictly crosses the ray's segment. -/
def findCollidingWall (walls : List Wall) (r : Ray) : Option Wall :=
  walls.find? (fun w => !genHit r w.id && properCross r.a r.b w.a w.b)

/-- The replacement ray the resolver appends: the 2-tuple
`(origin, intersection)`. -/
def replacementRay (origin : Point) (r : Ray) (w : Wall) : Ray :=
  ⟨origin, get_intersection r.a r.b w.a w.b, none⟩

/-- The number of walls strictly crossing a ray's segment (termination
measure for the resolver loop: each replacement ray is crossed by strictly
fewer walls than the ray it replaces). -/
def crossCount (walls : List Wall) (r : Ray) : Nat :=
  walls.countP (fun w => properCross r.a r.b w.a w.b)

/-- An upper bound on the number of iterations of the resolver's
`for ray in rays` loop (which iterates over a list that grows at its end):
one step per pending ray plus one per wall that could still clip it. -/
def resolveFuel (walls : List Wall) (rays : List Ray) : Nat :=
  (rays.map (fun r => 1 + crossCount walls r)).sum

/-- The resolver loop: Python's `for ray in rays` with `rays.append` during
iteration processes the list front to back, including elements appended
behind the cursor.  `pending` is the unprocessed suffix, `done` the processed
prefix (the full working ray set at the end), `col` is `colliding_rays`.
The fuel argument is an upper bound on iterations; the termination theorem
shows `resolveFuel` always suffices, so with it the model equals the Python
loop. -/
def resolveLoop (walls : List Wall) (origin : Point) :
    Nat → List Ray → List Ray → List Ray →
    List Ray × List Ray × List Ray
  | 0, pending, done, col => (pending, done, col)
  | _ + 1, [], done, col => ([], done, col)
  | n + 1, r :: rest, done, col =>
    match findCollidingWall walls r with
    | none => resolveLoop walls origin n rest (done ++ [r]) col
    | some w =>
        resolveLoop walls origin n (rest ++ [replacementRay origin r w])
          (done ++ [r]) (col ++ [r])

/-- The walls in the order the resolver scans them: sorted by the distance of
the wall centroid from the origin, ascending (`walls.sort(key=...)`). -/
def sortedWalls (G : GeomModel) (origin : Point) (walls : List Wall) :
    List Wall :=
  sortByKey (fun w => G.dist w.centroid origin) walls

/-- The complete resolver pass on a ray set: sort the walls by centroid
distance, run the clipping loop, and return
(leftover pending, working ray set, colliding rays). -/
def resolveAll (G : GeomModel) (origin : Point) (walls : List Wall)
    (rays : List Ray) : List Ray × List Ray × List Ray :=
  let sw := sortedWalls G origin walls
  resolveLoop sw origin (resolveFuel sw rays) rays [] []

/-! ## Polygon Assembler (`Light.update_light`, lines 254-259) -/

/-- The tail of `update_light`: drop the colliding rays from the working ray
set, sort the remainder by the angle of each ray's target around the origin,
and project the targets to the polygon.  Returns `(rays_, polygon)`. -/
def resolveRays (G : GeomModel) (origin : Point) (walls : List Wall)
    (rays : List Ray) : List Ray × List Point :=
  let res := resolveAll G origin walls rays
  let rays' := res.2.1.filter (fun r => decide (r ∉ res.2.2))
  let raysSorted := sortByKey (fun r => G.ang origin r.b) rays'
  (raysSorted, raysSorted.map (fun r => r.b))

/-- `Light.update_light`: sort the endpoints by angle, cast the rays, then
resolve intersections and assemble the polygon.  `none` models the
`KeyError` the source raises when a blocking-edge lookup fails. -/
def update_light (G : GeomModel) (walls : List Wall)
    (endpoints : List Endpoint) (origin : Point) (power : ℚ) :
    Option (List Ray × List Point) := do
  let endpointsSorted := sortByKey (fun e => G.ang origin e.position) endpoints
  let rays ← cast_rays G walls endpointsSorted origin power
  pure (resolveRays G origin walls rays)

/-- The whole per-frame pipeline of a `Light` for a given geometry model:
build walls from the screen borders and obstacles, index the endpoints, and
update.  `none` models a raised exception. -/
def lightCompute (G : GeomModel) (screenH screenW : ℚ)
    (obstacles : List (List Point)) (x y power : ℚ) :
    Option (List Ray × List Point) := do
  let walls ← find_walls screenH screenW obstacles
  update_light G walls (find_endpoints walls) (x, y) power

/-! ## A concrete geometry instance

For concrete evaluations the abstract model is instantiated with computable
order-faithful encodings: the pseudo-angle (a rational function that is
strictly increasing in the true counterclockwise angle, cut at the positive
x-axis) for `calculate_angle`, the squared Euclidean distance for
`distance_2d` (order-equivalent, since the source only compares distances
with each other; a range threshold is then also given in squared units), and
for `move_along_vector` the point in the encoded direction placed on the
axis-aligned square of the given radius. -/

/-- Modelled from the spec: `calculate_angle origin p` encoded as the
pseudo-angle of `p` around `origin`, a rational value in `[0, 4)` strictly
increasing in the counterclockwise angle from the positive x-axis. -/
def pseudoAngle (o p : Point) : ℚ :=
  let dx := p.1 - o.1
  let dy := p.2 - o.2
  if dx = 0 ∧ dy = 0 then 0
  else if 0 < dx ∧ 0 ≤ dy then dy / (dx + dy)
  else if dx ≤ 0 ∧ 0 < dy then 1 + (-dx) / (dy - dx)
  else if dx < 0 ∧ dy ≤ 0 then 2 + (-dy) / (-dx - dy)
  else 3 + dx / (dx - dy)

/-- Modelled from the spec: `distance_2d` encoded as the squared Euclidean
distance (order-equivalent for all comparisons the source makes). -/
def sqDist (a b : Point) : ℚ := (b.1 - a.1) ^ 2 + (b.2 - a.2) ^ 2

/-- The unit direction for a pseudo-angle `t ∈ [0, 4)`, taken on the
axis-aligned unit square (so that `pseudoAngle (0,0) (dirPoint t) = t`). -/
def dirPoint (t : ℚ) : Point :=
  if t < 1 then (1 - t, t)
  else if t < 2 then (1 - t, 2 - t)
  else if t < 3 then (t - 3, 2 - t)
  else (t - 3, t - 4)

/-- Normalise a pseudo-angle into `[0, 4)`. -/
def norm4 (t : ℚ) : ℚ := t - 4 * ((⌊t / 4⌋ : ℤ) : ℚ)

/-- Modelled from the spec: `move_along_vector origin range τ` — the point at
angular parameter `τ` and radius `range` from `origin`.  The source passes
the negated angle, so the parameter is decoded as `-τ`; the point is taken on
the axis-aligned square of the given radius (a computable stand-in for the
Euclidean circle, at the correct angular position up to the radial encoding).
-/
def specMav (o : Point) (r : ℚ) (τ : ℚ) : Point :=
  let d := dirPoint (norm4 (-τ))
  (o.1 + r * d.1, o.2 + r * d.2)

/-- Modelled from the spec: `quadrant p origin` — which of the four regions
split at the origin's axes contains `p` (boundaries assigned to the
upper/left sides). -/
def quadrantOf (p o : Point) : Quadrant :=
  if p.1 ≤ o.1 then
    (if o.2 ≤ p.2 then Quadrant.UL else Quadrant.LL)
  else
    (if o.2 ≤ p.2 then Quadrant.UR else Quadrant.LR)

/-- The concrete geometry model used for evaluating the pipeline on
explicit inputs. -/
def specGeom : GeomModel :=
  { ang := pseudoAngle
    dist := sqDist
    mav := specMav
    quad := quadrantOf }

/-! ## Lemmas: wall builder -/

lemma closedEdges_length (p : Point) (tl : List Point) :
    ∃ es, closedEdges (p :: tl) = some es ∧ es.length = tl.length + 1 := by
  refine ⟨_, rfl, ?_⟩
  simp [List.length_zip]

lemma obstacleEdges_length (obs : List (List Point))
    (h : ∀ o ∈ obs, o ≠ []) :
    ∃ es, obstacleEdges obs = some es ∧
      es.length = (obs.map List.length).sum := by
  induction obs with
  | nil => exact ⟨[], rfl, rfl⟩
  | cons ps rest ih =>
      obtain ⟨esr, hr, hlen⟩ := ih (fun o ho => h o (List.mem_cons_of_mem _ ho))
      match ps, h ps (List.mem_cons_self _ _) with
      | p :: tl, _ =>
        obtain ⟨es1, he1, hl1⟩ := closedEdges_length p tl
        refine ⟨es1 ++ esr, ?_, ?_⟩
        · simp [obstacleEdges, he1, hr]
        · simp [hl1, hlen, List.length_cons, Nat.add_comm]

/-- C6: with every obstacle contributing at least 2 points, the Wall Builder
succeeds and produces exactly `4 + Σ |obstacle.points|` walls (one per
obstacle edge including the closing edge, plus the four borders); coincident
walls are all kept, so the count is exact even with duplicate edges. -/
theorem wall_count_invariant (screenH screenW : ℚ)
    (obstacles : List (List Point))
    (h : ∀ o ∈ obstacles, 2 ≤ o.length) :
    (find_walls screenH screenW obstacles).map List.length =
      some (4 + (obstacles.map List.length).sum) := by
  have hne : ∀ o ∈ obstacles, o ≠ [] := by
    intro o ho he
    have h2 := h o ho
    rw [he] at h2
    simp at h2
  obtain ⟨es, he, hlen⟩ := obstacleEdges_length obstacles hne
  simp [find_walls, he, List.enum_length, hlen]
  omega

/-- Witness for C6: two obstacles with coincident edges (no deduplication),
each with 2 points: `4 + 2 + 2 = 8` walls. -/
theorem wall_count_invariant_witness :
    (∀ o ∈ [[((0 : ℚ), (0 : ℚ)), (1, 0)], [(0, 0), (1, 0)]], 2 ≤ o.length) ∧
    (find_walls 9 9 [[(0, 0), (1, 0)], [(0, 0), (1, 0)]]).map List.length =
      some (4 + ([[((0 : ℚ), (0 : ℚ)), (1, 0)],
                  [(0, 0), (1, 0)]].map List.length).sum) :=
  ⟨by decide, wall_count_invariant 9 9 _ (by decide)⟩

/-! ## Lemmas: endpoint index -/

lemma visitEndings_nodup (l : List Point) :
    ∀ visited : List Point, visited.Nodup → (visitEndings visited l).Nodup := by
  induction l with
  | nil => intro visited hv; exact hv
  | cons p ps ih =>
      intro visited hv
      by_cases hp : p ∈ visited
      · simpa [visitEndings, hp] using ih visited hv
      · have hv' : (visited ++ [p]).Nodup := by
          simp [List.nodup_append, hv, hp]
        simpa [visitEndings, hp] using ih (visited ++ [p]) hv'

lemma visitEndings_mem (l : List Point) :
    ∀ (visited : List Point) (q : Point),
      q ∈ visitEndings visited l ↔ q ∈ visited ∨ q ∈ l := by
  induction l with
  | nil => intro visited q; simp [visitEndings]
  | cons p ps ih =>
      intro visited q
      by_cases hp : p ∈ visited
      · simp only [visitEndings, if_pos hp, ih]
        constructor
        · rintro (h | h)
          · exact Or.inl h
          · exact Or.inr (List.mem_cons_of_mem _ h)
        · rintro (h | h)
          · exact Or.inl h
          · rcases List.mem_cons.1 h with rfl | h
            · exact Or.inl hp
            · exact Or.inr h
      · simp only [visitEndings, if_neg hp, ih, List.mem_append,
          List.mem_singleton, List.mem_cons]
        tauto

lemma visitEndings_length_le (l : List Point) :
    ∀ visited : List Point,
      (visitEndings visited l).length ≤ visited.length + l.length := by
  induction l with
  | nil => intro visited; simp [visitEndings]
  | cons p ps ih =>
      intro visited
      by_cases hp : p ∈ visited
      · calc (visitEndings visited (p :: ps)).length
            = (visitEndings visited ps).length := by simp [visitEndings, hp]
          _ ≤ visited.length + ps.length := ih visited
          _ ≤ visited.length + (p :: ps).length := by simp
      · calc (visitEndings visited (p :: ps)).length
            = (visitEndings (visited ++ [p]) ps).length := by
              simp [visitEndings, hp]
          _ ≤ (visited ++ [p]).length + ps.length := ih _
          _ = visited.length + (p :: ps).length := by simp; omega

lemma visitEndings_length_eq (l : List Point) :
    ∀ visited : List Point,
      ((visitEndings visited l).length = visited.length + l.length ↔
        (l.Nodup ∧ ∀ x ∈ l, x ∉ visited)) := by
  induction l with
  | nil => intro visited; simp [visitEndings]
  | cons p ps ih =>
      intro visited
      by_cases hp : p ∈ visited
      · simp only [visitEndings, if_pos hp]
        constructor
        · intro h
          exfalso
          have hle := visitEndings_length_le ps visited
          rw [h] at hle
          simp [List.length_cons] at hle
        · rintro ⟨-, hall⟩
          exact absurd hp (hall p (List.mem_cons_self _ _))
      · simp only [visitEndings, if_neg hp]
        have hlen2 : visited.length + (p :: ps).length =
            (visited ++ [p]).length + ps.length := by
          simp only [List.length_append, List.length_cons, List.length_nil]
          omega
        rw [hlen2, ih (visited ++ [p])]
        constructor
        · rintro ⟨hnd, hall⟩
          have hpps : p ∉ ps := fun hmem => by
            have := hall p hmem
            simp at this
          refine ⟨List.nodup_cons.2 ⟨hpps, hnd⟩, ?_⟩
          intro x hx
          rcases List.mem_cons.1 hx with rfl | hx
          · exact hp
          · have := hall x hx
            intro hxv
            exact this (by simp [hxv])
        · rintro ⟨hnd, hall⟩
          obtain ⟨hpps, hnd'⟩ := List.nodup_cons.1 hnd
          refine ⟨hnd', ?_⟩
          intro x hx
          intro hxv
          rcases List.mem_append.1 hxv with hxv | hxv
          · exact hall x (List.mem_cons_of_mem _ hx) hxv
          · rcases List.mem_singleton.1 hxv with rfl
            exact hpps hx

lemma allEndings_length (walls : List Wall) :
    (allEndings walls).length = 2 * walls.length := by
  induction walls with
  | nil => rfl
  | cons w ws ih =>
      simp [allEndings] at ih ⊢
      omega

/-- C7: the Endpoint Index keeps exactly one endpoint per distinct
wall-ending position (the position list is duplicate-free and covers exactly
the wall endings), hence at most `2 * |walls|` endpoints, with equality
precisely when no two wall endings coincide. -/
theorem endpoint_index_dedup (walls : List Wall) :
    ((find_endpoints walls).map Endpoint.position).Nodup ∧
    (∀ p : Point,
      p ∈ (find_endpoints walls).map Endpoint.position ↔
        p ∈ allEndings walls) ∧
    (find_endpoints walls).length ≤ 2 * walls.length ∧
    ((find_endpoints walls).length = 2 * walls.length ↔
      (allEndings walls).Nodup) := by
  have hmap : (find_endpoints walls).map Endpoint.position =
      visitEndings [] (allEndings walls) := by
    have hcomp : (Endpoint.position ∘ fun p =>
        (⟨p, (assignSlots walls p).1, (assignSlots walls p).2⟩ : Endpoint)) =
        (id : Point → Point) := rfl
    unfold find_endpoints
    rw [List.map_map, hcomp, List.map_id]
  have hlen : (find_endpoints walls).length =
      (visitEndings [] (allEndings walls)).length := by
    simp [find_endpoints]
  refine ⟨?_, ?_, ?_, ?_⟩
  · rw [hmap]; exact visitEndings_nodup _ [] List.nodup_nil
  · intro p
    rw [hmap, visitEndings_mem]
    simp
  · rw [hlen, ← allEndings_length walls]
    simpa using visitEndings_length_le (allEndings walls) []
  · rw [hlen, ← allEndings_length walls]
    have := visitEndings_length_eq (allEndings walls) []
    simp only [List.length_nil, Nat.zero_add] at this
    rw [this]
    simp

/-- Counterexample to C8: for the 1-point obstacle `[(1, 2)]` the Wall
Builder does not fail — it returns a wall list (`isSome`) that contains a
degenerate wall with `a = b`, so the `a ≠ b` invariant is violated
silently. -/
theorem wall_builder_no_fail_cex :
    (find_walls 100 100 [[((1 : ℚ), (2 : ℚ))]]).isSome = true ∧
    ((find_walls 100 100 [[((1 : ℚ), (2 : ℚ))]]).getD []).any
      (fun w => w.a == w.b) = true := by
  constructor
  · rfl
  · rfl

/-- C8 as amended: only an obstacle with zero points makes the Wall Builder
fail (an `IndexError` on `points[-1]`, not a descriptive error); an obstacle
with exactly one point is accepted silently and yields precisely the four
border walls plus one degenerate wall whose two endpoints are both that
point. -/
theorem wall_builder_degenerate_amended (screenH screenW : ℚ) (p : Point) :
    find_walls screenH screenW [([] : List Point)] = none ∧
    (find_walls screenH screenW [[p]]).map
        (fun ws => ws.map (fun w => (w.a, w.b))) =
      some [((screenH, 0), (screenH, screenW)),
            ((screenH, screenW), (0, screenW)),
            ((0, screenW), (0, 0)),
            ((0, 0), (screenH, 0)),
            (p, p)] := by
  constructor
  · rfl
  · rfl

/-! ## Lemmas: segment crossing and the intersection point -/

lemma properCross_iff {p1 p2 q1 q2 : Point} :
    properCross p1 p2 q1 q2 = true ↔
      (orient p1 p2 q1 * orient p1 p2 q2 < 0 ∧
       orient q1 q2 p1 * orient q1 q2 p2 < 0) := by
  simp [properCross]

lemma interDenom_eq (o t a b : Point) :
    interDenom o t a b = orient a b o - orient a b t := by
  simp only [interDenom, orient, cross]
  ring

/-- C5 core, first half: a zero determinant (parallel or collinear segments)
means the segments are never reported as crossing. -/
lemma parallel_not_properCross (o t a b : Point)
    (h : interDenom o t a b = 0) : properCross o t a b = false := by
  rcases Bool.eq_false_or_eq_true (properCross o t a b) with ht | hf
  · exfalso
    obtain ⟨-, h2⟩ := properCross_iff.mp ht
    rw [interDenom_eq] at h
    have hE : orient a b o = orient a b t := by linarith
    rw [hE] at h2
    nlinarith [mul_self_nonneg (orient a b t)]
  · exact hf

/-- The intersection parameter along the ray: `s = A / (A - B)` with
`A = orient a b o`, `B = orient a b t`. -/
def sParam (o t a b : Point) : ℚ :=
  orient a b o / (orient a b o - orient a b t)

lemma get_intersection_eq (o t a b : Point) :
    get_intersection o t a b =
      (o.1 + sParam o t a b * (t.1 - o.1),
       o.2 + sParam o t a b * (t.2 - o.2)) := by
  have hnum : (b.1 - a.1) * (o.2 - a.2) - (b.2 - a.2) * (o.1 - a.1) =
      orient a b o := by
    simp only [orient, cross]
  have hden : (b.2 - a.2) * (t.1 - o.1) - (b.1 - a.1) * (t.2 - o.2) =
      orient a b o - orient a b t := by
    simp only [orient, cross]; ring
  simp only [get_intersection, sParam]
  rw [hnum, hden]

lemma sParam_mem (o t a b : Point)
    (h : orient a b o * orient a b t < 0) :
    0 < sParam o t a b ∧ sParam o t a b < 1 := by
  unfold sParam
  rcases mul_neg_iff.mp h with ⟨hA, hB⟩ | ⟨hA, hB⟩
  · have hden : 0 < orient a b o - orient a b t := by linarith
    refine ⟨div_pos hA hden, ?_⟩
    rw [div_lt_one hden]
    linarith
  · have hden : orient a b o - orient a b t < 0 := by linarith
    have hrw : orient a b o / (orient a b o - orient a b t) =
        (-orient a b o) / (-(orient a b o - orient a b t)) := by
      rw [neg_div_neg_eq]
    rw [hrw]
    have hden' : 0 < -(orient a b o - orient a b t) := by linarith
    refine ⟨div_pos (by linarith) hden', ?_⟩
    rw [div_lt_one hden']
    linarith

lemma orient_scaled (o t x : Point) (s : ℚ) :
    orient o (o.1 + s * (t.1 - o.1), o.2 + s * (t.2 - o.2)) x =
      s * orient o t x := by
  simp only [orient, cross]
  ring

lemma orient_affine (x1 x2 o t : Point) (s : ℚ) :
    orient x1 x2 (o.1 + s * (t.1 - o.1), o.2 + s * (t.2 - o.2)) =
      (1 - s) * orient x1 x2 o + s * orient x1 x2 t := by
  simp only [orient, cross]
  ring

/-- Clipping strictly shrinks the set of crossing walls: every wall strictly
crossing the clipped segment `origin → intersection` also crosses the
original segment, and the clipping wall itself no longer crosses. -/
lemma crossing_shrinks (o t a b : Point)
    (h : properCross o t a b = true) :
    (∀ x1 x2 : Point,
        properCross o (get_intersection o t a b) x1 x2 = true →
          properCross o t x1 x2 = true) ∧
    properCross o (get_intersection o t a b) a b = false := by
  obtain ⟨h1, h2⟩ := properCross_iff.mp h
  have hne : orient a b o - orient a b t ≠ 0 := by
    intro h0
    have hE : orient a b o = orient a b t := by linarith
    rw [hE] at h2
    nlinarith [mul_self_nonneg (orient a b t)]
  obtain ⟨hs0, hs1⟩ := sParam_mem o t a b h2
  have hi := get_intersection_eq o t a b
  constructor
  · intro x1 x2 hq
    rw [properCross_iff] at hq ⊢
    rw [hi, orient_scaled, orient_scaled, orient_affine] at hq
    obtain ⟨hq1, hq2⟩ := hq
    constructor
    · nlinarith [mul_pos hs0 hs0]
    · set P := orient x1 x2 o with hP
      set Q := orient x1 x2 t with hQ
      set s := sParam o t a b with hs
      nlinarith [sq_nonneg P, mul_pos hs0 (mul_pos hs0 hs0)]
  · rcases Bool.eq_false_or_eq_true
      (properCross o (get_intersection o t a b) a b) with ht | hf
    swap
    · exact hf
    · exfalso
      obtain ⟨-, ht2⟩ := properCross_iff.mp ht
      rw [hi, orient_affine] at ht2
      have hz : (1 - sParam o t a b) * orient a b o +
          sParam o t a b * orient a b t = 0 := by
        unfold sParam
        field_simp
        ring
      rw [hz] at ht2
      simp at ht2

/-! ## Lemmas: the resolver loop terminates and clips -/

lemma countP_strict_lt {α : Type} {p q : α → Bool} :
    ∀ (l : List α), (∀ x ∈ l, q x = true → p x = true) →
      ∀ w ∈ l, p w = true → q w = false →
        l.countP q < l.countP p := by
  intro l
  induction l with
  | nil => intro _ w hw; exact absurd hw (List.not_mem_nil w)
  | cons y ys ih =>
      intro hsub w hw hp hq
      have hyle : (if q y then 1 else 0) ≤ (if p y then 1 else 0) := by
        by_cases hqy : q y = true
        · rw [hsub y (List.mem_cons_self _ _) hqy, hqy]
        · simp [Bool.eq_false_iff.mpr hqy]
      rcases List.mem_cons.1 hw with rfl | hw'
      · have hmono : ys.countP q ≤ ys.countP p := by
          apply List.countP_mono_left
          intro x hx
          exact hsub x (List.mem_cons_of_mem _ hx)
        rw [List.countP_cons, List.countP_cons, hp, hq]
        simp
        omega
      · have hlt : ys.countP q < ys.countP p :=
          ih (fun x hx => hsub x (List.mem_cons_of_mem _ hx)) w hw' hp hq
        rw [List.countP_cons, List.countP_cons]
        omega

/-- The replacement ray appended for a clipped ray is strictly crossed by
fewer walls than the clipped ray itself. -/
lemma crossCount_replacement_lt (walls : List Wall) (origin : Point)
    (r : Ray) (w : Wall) (ha : r.a = origin)
    (hfind : findCollidingWall walls r = some w) :
    crossCount walls (replacementRay origin r w) < crossCount walls r := by
  have hw : w ∈ walls := List.mem_of_find?_eq_some hfind
  have hpred := List.find?_some hfind
  have hcross : properCross r.a r.b w.a w.b = true := by
    simp only [Bool.and_eq_true] at hpred
    exact hpred.2
  obtain ⟨hmono, hno⟩ := crossing_shrinks r.a r.b w.a w.b hcross
  have hda : (replacementRay origin r w).a = r.a := by
    simp [replacementRay, ha]
  unfold crossCount
  have hq : (fun w' : Wall =>
      properCross (replacementRay origin r w).a (replacementRay origin r w).b
        w'.a w'.b) =
      (fun w' : Wall =>
        properCross r.a (get_intersection r.a r.b w.a w.b) w'.a w'.b) := by
    funext w'
    rw [hda]
    simp only [replacementRay]
  rw [hq]
  exact countP_strict_lt walls
    (fun x _ hx => hmono x.a x.b hx) w hw hcross hno

lemma resolveFuel_cons (walls : List Wall) (r : Ray) (rest : List Ray) :
    resolveFuel walls (r :: rest) =
      1 + crossCount walls r + resolveFuel walls rest := by
  simp [resolveFuel]

lemma resolveFuel_append_one (walls : List Wall) (rest : List Ray) (x : Ray) :
    resolveFuel walls (rest ++ [x]) =
      resolveFuel walls rest + (1 + crossCount walls x) := by
  simp [resolveFuel]

/-- With `resolveFuel` much fuel, the loop always exhausts its pending list:
this is the termination argument for the source's `for ray in rays` loop
over a growing list. -/
lemma resolveLoop_empties (walls : List Wall) (origin : Point) :
    ∀ (n : ℕ) (pending done col : List Ray),
      resolveFuel walls pending ≤ n →
      (∀ r ∈ pending, r.a = origin) →
      (resolveLoop walls origin n pending done col).1 = [] := by
  intro n
  induction n with
  | zero =>
      intro pending done col hf _
      cases pending with
      | nil => rfl
      | cons r rest =>
          exfalso
          rw [resolveFuel_cons] at hf
          omega
  | succ n ih =>
      intro pending done col hf ha
      cases pending with
      | nil => rfl
      | cons r rest =>
          rw [resolveFuel_cons] at hf
          show (match findCollidingWall walls r with
            | none => resolveLoop walls origin n rest (done ++ [r]) col
            | some w =>
                resolveLoop walls origin n
                  (rest ++ [replacementRay origin r w])
                  (done ++ [r]) (col ++ [r])).1 = []
          cases hfind : findCollidingWall walls r with
          | none =>
              apply ih
              · omega
              · exact fun x hx => ha x (List.mem_cons_of_mem _ hx)
          | some w =>
              apply ih
              · rw [resolveFuel_append_one]
                have hlt := crossCount_replacement_lt walls origin r w
                  (ha r (List.mem_cons_self _ _)) hfind
                omega
              · intro x hx
                rcases List.mem_append.1 hx with hx | hx
                · exact ha x (List.mem_cons_of_mem _ hx)
                · rcases List.mem_singleton.1 hx with rfl
                  rfl

/-- C10: the intersection-resolution pass terminates for every finite ray and
wall set: with the `resolveFuel` iteration budget — which is what `resolveAll`
uses — the loop always empties its pending list, even though every clipped
ray appends a replacement ray behind the iteration cursor that is itself
re-examined (and possibly clipped again).  The hypothesis records that all
working rays start at the light origin, as every ray built by `cast_rays`
and every replacement ray does. -/
theorem resolver_terminates (G : GeomModel) (origin : Point)
    (walls : List Wall) (rays : List Ray)
    (hanchor : ∀ r ∈ rays, r.a = origin) :
    (resolveAll G origin walls rays).1 = [] := by
  unfold resolveAll
  exact resolveLoop_empties _ origin _ rays [] [] (le_refl _) hanchor

/-- Witness for C10 at a concrete input: one ray crossing one wall (the
replacement is appended and re-processed, and the loop still finishes). -/
theorem resolver_terminates_witness :
    (∀ r ∈ [(⟨(0, 0), (2, 0), none⟩ : Ray)], r.a = ((0 : ℚ), (0 : ℚ))) ∧
    (resolveAll specGeom (0, 0) [⟨0, (1, -1), (1, 1)⟩]
      [⟨(0, 0), (2, 0), none⟩]).1 = [] :=
  ⟨by decide, resolver_terminates specGeom (0, 0) _ _ (by decide)⟩

lemma resolveLoop_done_sub (walls : List Wall) (origin : Point) :
    ∀ (n : ℕ) (pending done col : List Ray), ∀ x ∈ done,
      x ∈ (resolveLoop walls origin n pending done col).2.1 := by
  intro n
  induction n with
  | zero => intro pending done col x hx; exact hx
  | succ n ih =>
      intro pending done col x hx
      cases pending with
      | nil => exact hx
      | cons r rest =>
          show x ∈ (match findCollidingWall walls r with
            | none => resolveLoop walls origin n rest (done ++ [r]) col
            | some w =>
                resolveLoop walls origin n
                  (rest ++ [replacementRay origin r w])
                  (done ++ [r]) (col ++ [r])).2.1
          cases hfind : findCollidingWall walls r with
          | none => exact ih _ _ _ x (List.mem_append_left _ hx)
          | some w => exact ih _ _ _ x (List.mem_append_left _ hx)

lemma resolveLoop_col_sub (walls : List Wall) (origin : Point) :
    ∀ (n : ℕ) (pending done col : List Ray), ∀ x ∈ col,
      x ∈ (resolveLoop walls origin n pending done col).2.2 := by
  intro n
  induction n with
  | zero => intro pending done col x hx; exact hx
  | succ n ih =>
      intro pending done col x hx
      cases pending with
      | nil => exact hx
      | cons r rest =>
          show x ∈ (match findCollidingWall walls r with
            | none => resolveLoop walls origin n rest (done ++ [r]) col
            | some w =>
                resolveLoop walls origin n
                  (rest ++ [replacementRay origin r w])
                  (done ++ [r]) (col ++ [r])).2.2
          cases hfind : findCollidingWall walls r with
          | none => exact ih _ _ _ x hx
          | some w => exact ih _ _ _ x (List.mem_append_left _ hx)

lemma resolveLoop_pending_done (walls : List Wall) (origin : Point) :
    ∀ (n : ℕ) (pending done col : List Ray),
      resolveFuel walls pending ≤ n →
      (∀ r ∈ pending, r.a = origin) →
      ∀ x ∈ pending, x ∈ (resolveLoop walls origin n pending done col).2.1 := by
  intro n
  induction n with
  | zero =>
      intro pending done col hf _ x hx
      cases pending with
      | nil => exact absurd hx (List.not_mem_nil x)
      | cons r rest =>
          exfalso
          rw [resolveFuel_cons] at hf
          omega
  | succ n ih =>
      intro pending done col hf ha x hx
      cases pending with
      | nil => exact absurd hx (List.not_mem_nil x)
      | cons r rest =>
          rw [resolveFuel_cons] at hf
          show x ∈ (match findCollidingWall walls r with
            | none => resolveLoop walls origin n rest (done ++ [r]) col
            | some w =>
                resolveLoop walls origin n
                  (rest ++ [replacementRay origin r w])
                  (done ++ [r]) (col ++ [r])).2.1
          cases hfind : findCollidingWall walls r with
          | none =>
              rcases List.mem_cons.1 hx with rfl | hx'
              · exact resolveLoop_done_sub walls origin n rest (done ++ [x])
                  col x (List.mem_append_right _ (List.mem_singleton.2 rfl))
              · exact ih rest _ _ (by omega)
                  (fun y hy => ha y (List.mem_cons_of_mem _ hy)) x hx'
          | some w =>
              have hfr : resolveFuel walls (rest ++ [replacementRay origin r w])
                  ≤ n := by
                rw [resolveFuel_append_one]
                have hlt := crossCount_replacement_lt walls origin r w
                  (ha r (List.mem_cons_self _ _)) hfind
                omega
              have har : ∀ y ∈ rest ++ [replacementRay origin r w],
                  y.a = origin := by
                intro y hy
                rcases List.mem_append.1 hy with hy | hy
                · exact ha y (List.mem_cons_of_mem _ hy)
                · rcases List.mem_singleton.1 hy with rfl
                  rfl
              rcases List.mem_cons.1 hx with rfl | hx'
              · exact resolveLoop_done_sub walls origin n _ (done ++ [x])
                  (col ++ [x]) x
                  (List.mem_append_right _ (List.mem_singleton.2 rfl))
              · exact ih _ _ _ hfr har x (List.mem_append_left _ hx')

lemma resolveLoop_clip_invariant (walls : List Wall) (origin : Point) :
    ∀ (n : ℕ) (pending done col : List Ray),
      resolveFuel walls pending ≤ n →
      (∀ x ∈ pending, x.a = origin) →
      (∀ x ∈ done, ∀ w, findCollidingWall walls x = some w →
        x ∈ col ∧ replacementRay origin x w ∈ done ++ pending) →
      ∀ x ∈ (resolveLoop walls origin n pending done col).2.1,
        ∀ w, findCollidingWall walls x = some w →
          x ∈ (resolveLoop walls origin n pending done col).2.2 ∧
          replacementRay origin x w ∈
            (resolveLoop walls origin n pending done col).2.1 := by
  intro n
  induction n with
  | zero =>
      intro pending done col hf _ hinv x hx w hw
      cases pending with
      | cons r rest =>
          exfalso
          rw [resolveFuel_cons] at hf
          omega
      | nil =>
          obtain ⟨h1, h2⟩ := hinv x hx w hw
          rw [List.append_nil] at h2
          exact ⟨h1, h2⟩
  | succ n ih =>
      intro pending done col hf ha hinv x hx w hw
      cases pending with
      | nil =>
          obtain ⟨h1, h2⟩ := hinv x hx w hw
          rw [List.append_nil] at h2
          exact ⟨h1, h2⟩
      | cons r rest =>
          rw [resolveFuel_cons] at hf
          have hshow : resolveLoop walls origin (n + 1) (r :: rest) done col =
              (match findCollidingWall walls r with
                | none => resolveLoop walls origin n rest (done ++ [r]) col
                | some w0 =>
                    resolveLoop walls origin n
                      (rest ++ [replacementRay origin r w0])
                      (done ++ [r]) (col ++ [r])) := rfl
          cases hfind : findCollidingWall walls r with
          | none =>
              have hstep : resolveLoop walls origin (n + 1) (r :: rest) done
                  col = resolveLoop walls origin n rest (done ++ [r]) col := by
                rw [hshow, hfind]
              rw [hstep] at hx ⊢
              refine ih rest (done ++ [r]) col (by omega)
                (fun y hy => ha y (List.mem_cons_of_mem _ hy)) ?_ x hx w hw
              intro y hy w' hw'
              rcases List.mem_append.1 hy with hy' | hy'
              · obtain ⟨h1, h2⟩ := hinv y hy' w' hw'
                refine ⟨h1, ?_⟩
                simp only [List.mem_append, List.mem_cons] at h2 ⊢
                tauto
              · rcases List.mem_singleton.1 hy' with rfl
                rw [hfind] at hw'
                exact absurd hw' (by simp)
          | some w0 =>
              have hstep : resolveLoop walls origin (n + 1) (r :: rest) done
                  col = resolveLoop walls origin n
                    (rest ++ [replacementRay origin r w0])
                    (done ++ [r]) (col ++ [r]) := by
                rw [hshow, hfind]
              rw [hstep] at hx ⊢
              have hfr : resolveFuel walls
                  (rest ++ [replacementRay origin r w0]) ≤ n := by
                rw [resolveFuel_append_one]
                have hlt := crossCount_replacement_lt walls origin r w0
                  (ha r (List.mem_cons_self _ _)) hfind
                omega
              have har : ∀ y ∈ rest ++ [replacementRay origin r w0],
                  y.a = origin := by
                intro y hy
                rcases List.mem_append.1 hy with hy | hy
                · exact ha y (List.mem_cons_of_mem _ hy)
                · rcases List.mem_singleton.1 hy with rfl
                  rfl
              refine ih (rest ++ [replacementRay origin r w0]) (done ++ [r])
                (col ++ [r]) hfr har ?_ x hx w hw
              intro y hy w' hw'
              rcases List.mem_append.1 hy with hy' | hy'
              · obtain ⟨h1, h2⟩ := hinv y hy' w' hw'
                constructor
                · exact List.mem_append_left _ h1
                · simp only [List.mem_append, List.mem_cons] at h2 ⊢
                  tauto
              · rcases List.mem_singleton.1 hy' with rfl
                rw [hfind] at hw'
                have hww : w' = w0 := by
                  have := hw'
                  injection this with hinj
                  exact hinj.symm
                subst hww
                constructor
                · exact List.mem_append_right _ (List.mem_singleton.2 rfl)
                · refine List.mem_append_right _ ?_
                  exact List.mem_append_right _ (List.mem_singleton.2 rfl)

instance keyLE_total {α : Type} (key : α → ℚ) : IsTotal α (keyLE key) :=
  ⟨fun a b => le_total (key a) (key b)⟩

instance keyLE_trans {α : Type} (key : α → ℚ) : IsTrans α (keyLE key) :=
  ⟨fun _ _ _ h1 h2 => le_trans h1 h2⟩

lemma mem_sortByKey {α : Type} (key : α → ℚ) (l : List α) (x : α) :
    x ∈ sortByKey key l ↔ x ∈ l :=
  (List.perm_insertionSort (keyLE key) l).mem_iff

lemma sortByKey_sorted {α : Type} (key : α → ℚ) (l : List α) :
    List.Sorted (keyLE key) (sortByKey key l) :=
  List.sorted_insertionSort (keyLE key) l

/-- C1: the walls are scanned in ascending order of centroid distance from
the origin (first conjunct: the scanned list is sorted by that key, and
`findCollidingWall` is `find?`, i.e. picks the first wall that strictly
crosses the ray and is not a generating wall of it).  Whenever that search
succeeds for a ray of the working ray set, the ray is recorded as colliding,
the replacement ray from the origin to the computed intersection point is
added to the working ray set, and the original ray is discarded from the
final ray set. -/
theorem resolver_clips_at_first_crossing (G : GeomModel) (origin : Point)
    (walls : List Wall) (rays : List Ray) (r : Ray) (w : Wall)
    (hanchor : ∀ x ∈ rays, x.a = origin)
    (hr : r ∈ (resolveAll G origin walls rays).2.1)
    (hfind : findCollidingWall (sortedWalls G origin walls) r = some w) :
    List.Sorted (keyLE (fun w' => G.dist w'.centroid origin))
      (sortedWalls G origin walls) ∧
    r ∈ (resolveAll G origin walls rays).2.2 ∧
    replacementRay origin r w ∈ (resolveAll G origin walls rays).2.1 ∧
    r ∉ (resolveRays G origin walls rays).1 := by
  have hmain := resolveLoop_clip_invariant (sortedWalls G origin walls) origin
    (resolveFuel (sortedWalls G origin walls) rays) rays [] []
    (le_refl _) hanchor
    (fun x hx => absurd hx (List.not_mem_nil x))
    r hr w hfind
  refine ⟨sortByKey_sorted _ _, hmain.1, hmain.2, ?_⟩
  intro hmem
  have hmem0 : r ∈ sortByKey (fun x => G.ang origin x.b)
      ((resolveAll G origin walls rays).2.1.filter
        (fun x => decide (x ∉ (resolveAll G origin walls rays).2.2))) := hmem
  have hmem' := (mem_sortByKey (fun x => G.ang origin x.b) _ r).1 hmem0
  have hnotcol := List.of_mem_filter hmem'
  simp only [decide_eq_true_eq] at hnotcol
  exact hnotcol hmain.1

/-- Witness for C1: a single ray straight through a single wall; the wall is
found, the ray is discarded from the final set, and the clipped replacement
ray appears in the working set. -/
theorem resolver_clips_at_first_crossing_witness :
    ((∀ x ∈ [(⟨(0, 0), (2, 0), none⟩ : Ray)], x.a = ((0 : ℚ), (0 : ℚ))) ∧
     (⟨(0, 0), (2, 0), none⟩ : Ray) ∈
       (resolveAll specGeom (0, 0) [⟨0, (1, -1), (1, 1)⟩]
         [⟨(0, 0), (2, 0), none⟩]).2.1 ∧
     findCollidingWall
       (sortedWalls specGeom (0, 0) [⟨0, (1, -1), (1, 1)⟩])
       ⟨(0, 0), (2, 0), none⟩ = some ⟨0, (1, -1), (1, 1)⟩) ∧
    (List.Sorted (keyLE (fun w' => specGeom.dist w'.centroid (0, 0)))
       (sortedWalls specGeom (0, 0) [⟨0, (1, -1), (1, 1)⟩]) ∧
     (⟨(0, 0), (2, 0), none⟩ : Ray) ∈
       (resolveAll specGeom (0, 0) [⟨0, (1, -1), (1, 1)⟩]
         [⟨(0, 0), (2, 0), none⟩]).2.2 ∧
     replacementRay (0, 0) ⟨(0, 0), (2, 0), none⟩ ⟨0, (1, -1), (1, 1)⟩ ∈
       (resolveAll specGeom (0, 0) [⟨0, (1, -1), (1, 1)⟩]
         [⟨(0, 0), (2, 0), none⟩]).2.1 ∧
     (⟨(0, 0), (2, 0), none⟩ : Ray) ∉
       (resolveRays specGeom (0, 0) [⟨0, (1, -1), (1, 1)⟩]
         [⟨(0, 0), (2, 0), none⟩]).1) :=
  ⟨⟨by decide, by with_unfolding_all decide, by with_unfolding_all decide⟩,
   resolver_clips_at_first_crossing specGeom (0, 0) _ _ _ _
     (by decide) (by with_unfolding_all decide) (by with_unfolding_all decide)⟩

/-- C5: a ray-wall pair with zero determinant (parallel or collinear) is
never reported as crossing, so the resolver skips it; and whenever the
resolver does select a wall for a ray, the determinant that
`get_intersection` divides by is non-zero — no division by zero occurs for
any ray and wall set. -/
theorem parallel_pairs_never_divide (o t a b : Point)
    (walls : List Wall) (r : Ray) (w : Wall) :
    (interDenom o t a b = 0 → properCross o t a b = false) ∧
    (findCollidingWall walls r = some w →
      interDenom r.a r.b w.a w.b ≠ 0) := by
  constructor
  · exact parallel_not_properCross o t a b
  · intro hfind
    have hpred := List.find?_some hfind
    have hcross : properCross r.a r.b w.a w.b = true := by
      simp only [Bool.and_eq_true] at hpred
      exact hpred.2
    obtain ⟨-, h2⟩ := properCross_iff.mp hcross
    rw [interDenom_eq]
    intro h0
    have hE : orient w.a w.b r.a = orient w.a w.b r.b := by linarith
    rw [hE] at h2
    nlinarith [mul_self_nonneg (orient w.a w.b r.b)]

/-- Witness for C5: a horizontal ray against a parallel horizontal wall
(zero determinant, not crossing), and the resolver's selected wall for a
crossing ray (non-zero determinant). -/
theorem parallel_pairs_never_divide_witness :
    (interDenom (0, 0) (1, 0) (0, 1) (1, 1) = 0 ∧
     properCross ((0 : ℚ), (0 : ℚ)) (1, 0) (0, 1) (1, 1) = false) ∧
    (findCollidingWall [⟨0, (1, -1), (1, 1)⟩] ⟨(0, 0), (2, 0), none⟩ =
       some ⟨0, (1, -1), (1, 1)⟩ ∧
     interDenom (0, 0) (2, 0) (1, -1) (1, 1) ≠ 0) :=
  ⟨⟨by with_unfolding_all decide,
    (parallel_pairs_never_divide (0, 0) (1, 0) (0, 1) (1, 1)
      [⟨0, (1, -1), (1, 1)⟩] ⟨(0, 0), (2, 0), none⟩
      ⟨0, (1, -1), (1, 1)⟩).1 (by with_unfolding_all decide)⟩,
   ⟨by with_unfolding_all decide,
    (parallel_pairs_never_divide (0, 0) (1, 0) (0, 1) (1, 1)
      [⟨0, (1, -1), (1, 1)⟩] ⟨(0, 0), (2, 0), none⟩
      ⟨0, (1, -1), (1, 1)⟩).2 (by with_unfolding_all decide)⟩⟩

/-- C2: after resolution the polygon is exactly the targets of the final ray
set in order; the final ray set is the colliding-ray-free working set sorted
by the angle of each target around the origin, ascending; hence the polygon's
vertex angles around the origin are monotonically non-decreasing. -/
theorem polygon_sorted_by_angle (G : GeomModel) (origin : Point)
    (walls : List Wall) (rays : List Ray) :
    (resolveRays G origin walls rays).2 =
      (resolveRays G origin walls rays).1.map (fun r => r.b) ∧
    (resolveRays G origin walls rays).1 =
      sortByKey (fun r => G.ang origin r.b)
        ((resolveAll G origin walls rays).2.1.filter
          (fun x => decide (x ∉ (resolveAll G origin walls rays).2.2))) ∧
    List.Sorted (· ≤ ·)
      (((resolveRays G origin walls rays).2).map (G.ang origin)) := by
  refine ⟨rfl, rfl, ?_⟩
  have hs := sortByKey_sorted (fun r => G.ang origin r.b)
    ((resolveAll G origin walls rays).2.1.filter
      (fun x => decide (x ∉ (resolveAll G origin walls rays).2.2)))
  have hmm : ((resolveRays G origin walls rays).2).map (G.ang origin) =
      (sortByKey (fun r => G.ang origin r.b)
        ((resolveAll G origin walls rays).2.1.filter
          (fun x => decide (x ∉ (resolveAll G origin walls rays).2.2)))).map
        (fun r => G.ang origin r.b) := by
    rw [show (resolveRays G origin walls rays).2 =
      ((resolveRays G origin walls rays).1).map (fun r => r.b) from rfl]
    rw [List.map_map]
    rfl
  rw [hmm]
  exact List.pairwise_map.mpr hs

/-! ## Lemmas: which endpoints carry valid begin/end wall ids -/

lemma slotStep_fst_aux (p : Point) :
    ∀ (ws : List Wall) (acc : Option Nat × Option Nat),
      ((∃ w ∈ ws, p = w.a) →
        ∃ w ∈ ws, (ws.foldl (slotStep p) acc).1 = some w.id ∧ p = w.a) ∧
      ((¬ ∃ w ∈ ws, p = w.a) → (ws.foldl (slotStep p) acc).1 = acc.1) := by
  intro ws
  induction ws with
  | nil =>
      intro acc
      exact ⟨fun h => absurd h (by simp), fun _ => rfl⟩
  | cons w rest ih =>
      intro acc
      by_cases hex : ∃ w' ∈ rest, p = w'.a
      · constructor
        · intro _
          obtain ⟨w', hw', hslot, hpa⟩ := (ih (slotStep p acc w)).1 hex
          exact ⟨w', List.mem_cons_of_mem _ hw', hslot, hpa⟩
        · intro hn
          exfalso
          obtain ⟨w', hw', hpa⟩ := hex
          exact hn ⟨w', List.mem_cons_of_mem _ hw', hpa⟩
      · have htail := (ih (slotStep p acc w)).2 hex
        constructor
        · intro hhead
          have hpw : p = w.a := by
            obtain ⟨w', hw', hpa⟩ := hhead
            rcases List.mem_cons.1 hw' with rfl | hw''
            · exact hpa
            · exact absurd ⟨w', hw'', hpa⟩ hex
          refine ⟨w, List.mem_cons_self _ _, ?_, hpw⟩
          show ((w :: rest).foldl (slotStep p) acc).1 = some w.id
          rw [List.foldl_cons, htail]
          simp [slotStep, hpw]
        · intro hn
          have hpw : p ≠ w.a :=
            fun hpa => hn ⟨w, List.mem_cons_self _ _, hpa⟩
          show ((w :: rest).foldl (slotStep p) acc).1 = acc.1
          rw [List.foldl_cons, htail]
          by_cases hb : p = w.b
          · simp only [slotStep, if_neg hpw, if_pos hb]
          · simp only [slotStep, if_neg hpw, if_neg hb]

lemma slotStep_snd_aux (p : Point) :
    ∀ (ws : List Wall) (acc : Option Nat × Option Nat),
      ((∃ w ∈ ws, p ≠ w.a ∧ p = w.b) →
        ∃ w ∈ ws, (ws.foldl (slotStep p) acc).2 = some w.id ∧
          p ≠ w.a ∧ p = w.b) ∧
      ((¬ ∃ w ∈ ws, p ≠ w.a ∧ p = w.b) →
        (ws.foldl (slotStep p) acc).2 = acc.2) := by
  intro ws
  induction ws with
  | nil =>
      intro acc
      exact ⟨fun h => absurd h (by simp), fun _ => rfl⟩
  | cons w rest ih =>
      intro acc
      by_cases hex : ∃ w' ∈ rest, p ≠ w'.a ∧ p = w'.b
      · constructor
        · intro _
          obtain ⟨w', hw', hslot, hq⟩ := (ih (slotStep p acc w)).1 hex
          exact ⟨w', List.mem_cons_of_mem _ hw', hslot, hq⟩
        · intro hn
          exfalso
          obtain ⟨w', hw', hq⟩ := hex
          exact hn ⟨w', List.mem_cons_of_mem _ hw', hq⟩
      · have htail := (ih (slotStep p acc w)).2 hex
        constructor
        · intro hhead
          have hq : p ≠ w.a ∧ p = w.b := by
            obtain ⟨w', hw', hq⟩ := hhead
            rcases List.mem_cons.1 hw' with rfl | hw''
            · exact hq
            · exact absurd ⟨w', hw'', hq⟩ hex
          refine ⟨w, List.mem_cons_self _ _, ?_, hq⟩
          show ((w :: rest).foldl (slotStep p) acc).2 = some w.id
          rw [List.foldl_cons, htail]
          simp only [slotStep, if_neg hq.1, if_pos hq.2]
        · intro hn
          have hq : ¬(p ≠ w.a ∧ p = w.b) :=
            fun hq => hn ⟨w, List.mem_cons_self _ _, hq⟩
          show ((w :: rest).foldl (slotStep p) acc).2 = acc.2
          rw [List.foldl_cons, htail]
          by_cases hwa : p = w.a
          · simp only [slotStep, if_pos hwa]
          · have hwb : ¬ p = w.b := fun hb => hq ⟨hwa, hb⟩
            simp only [slotStep, if_neg hwa, if_neg hwb]

lemma castStep_isSome (G : GeomModel) (walls : List Wall) (origin : Point)
    (maxRange : ℚ) (e : Endpoint) (edge : Option (Nat × ℚ)) (rays : List Ray)
    (hb : ∃ i, e.begins = some i ∧ (wallById walls i).isSome = true)
    (he : ∃ j, e.ends = some j ∧ (wallById walls j).isSome = true) :
    (castStep G walls origin maxRange e edge rays).isSome = true := by
  obtain ⟨i, hbi, hbw⟩ := hb
  obtain ⟨j, hej, hew⟩ := he
  obtain ⟨wB, hwB⟩ := Option.isSome_iff_exists.1 hbw
  obtain ⟨wE, hwE⟩ := Option.isSome_iff_exists.1 hew
  unfold castStep
  by_cases hr : G.dist origin e.position > maxRange
  · simp [hr]
  · simp only [if_neg hr, hej, hbi, hwB, hwE]
    split <;> rfl

lemma castLoop_isSome (G : GeomModel) (walls : List Wall) (origin : Point)
    (maxRange : ℚ) :
    ∀ (eps : List Endpoint) (edge : Option (Nat × ℚ)) (rays : List Ray),
      (∀ e ∈ eps,
        (∃ i, e.begins = some i ∧ (wallById walls i).isSome = true) ∧
        (∃ j, e.ends = some j ∧ (wallById walls j).isSome = true)) →
      (castLoop G walls origin maxRange eps edge rays).isSome = true := by
  intro eps
  induction eps with
  | nil => intro edge rays _; rfl
  | cons e rest ih =>
      intro edge rays h
      have hstep := castStep_isSome G walls origin maxRange e edge rays
        (h e (List.mem_cons_self _ _)).1 (h e (List.mem_cons_self _ _)).2
      obtain ⟨st, hsome⟩ := Option.isSome_iff_exists.1 hstep
      show (match castStep G walls origin maxRange e edge rays with
        | none => none
        | some (edge', rays') =>
            castLoop G walls origin maxRange rest edge' rays').isSome = true
      rw [hsome]
      exact ih st.1 st.2 (fun x hx => h x (List.mem_cons_of_mem _ hx))

lemma find_endpoints_slots (walls : List Wall) (e : Endpoint)
    (he : e ∈ find_endpoints walls)
    (ha : ∃ w ∈ walls, e.position = w.a)
    (hb : ∃ w ∈ walls, e.position ≠ w.a ∧ e.position = w.b) :
    (∃ i, e.begins = some i ∧ (wallById walls i).isSome = true) ∧
    (∃ j, e.ends = some j ∧ (wallById walls j).isSome = true) := by
  obtain ⟨p, -, hpe⟩ := List.mem_map.1 he
  subst hpe
  constructor
  · obtain ⟨w, hw, hslot, -⟩ := (slotStep_fst_aux p walls (none, none)).1 ha
    refine ⟨w.id, hslot, ?_⟩
    unfold wallById
    rw [List.find?_isSome]
    exact ⟨w, hw, by simp⟩
  · obtain ⟨w, hw, hslot, -⟩ := (slotStep_snd_aux p walls (none, none)).1 hb
    refine ⟨w.id, hslot, ?_⟩
    unfold wallById
    rw [List.find?_isSome]
    exact ⟨w, hw, by simp⟩

/-- C9 as amended: the ray caster unconditionally looks up the wall each
processed endpoint ends and the wall it begins, so the update succeeds (no
`KeyError`) whenever every endpoint position is the first vertex of some wall
and the second vertex of some wall *whose first vertex differs from it* (the
second pass's `elif` never records a degenerate wall as an endpoint's `ends`
wall). -/
theorem cast_rays_precondition_amended (G : GeomModel) (walls : List Wall)
    (origin : Point) (power : ℚ)
    (h : ∀ e ∈ find_endpoints walls,
      (∃ w ∈ walls, e.position = w.a) ∧
      (∃ w ∈ walls, e.position ≠ w.a ∧ e.position = w.b)) :
    (update_light G walls (find_endpoints walls) origin power).isSome =
      true := by
  have hcast : (cast_rays G walls
      (sortByKey (fun e => G.ang origin e.position) (find_endpoints walls))
      origin power).isSome = true := by
    apply castLoop_isSome
    intro e hee
    have he' : e ∈ find_endpoints walls :=
      (mem_sortByKey (fun x => G.ang origin x.position) _ e).1 hee
    exact find_endpoints_slots walls e he' (h e he').1 (h e he').2
  obtain ⟨rays, hrays⟩ := Option.isSome_iff_exists.1 hcast
  simp only [update_light, hrays, Option.isSome_some, Option.bind_eq_bind,
    Option.bind_some]
  rfl

/-- Witness for the amended C9: the bare bounding area — every corner begins
one border wall and ends another non-degenerate one, and the update
computation succeeds. -/
theorem cast_rays_precondition_amended_witness :
    (∀ e ∈ find_endpoints ((find_walls 100 100 []).getD []),
      (∃ w ∈ (find_walls 100 100 []).getD [], e.position = w.a) ∧
      (∃ w ∈ (find_walls 100 100 []).getD [],
        e.position ≠ w.a ∧ e.position = w.b)) ∧
    (update_light specGeom ((find_walls 100 100 []).getD [])
      (find_endpoints ((find_walls 100 100 []).getD []))
      (50, 50) 22500).isSome = true :=
  ⟨by with_unfolding_all decide,
   cast_rays_precondition_amended specGeom _ (50, 50) 22500
     (by with_unfolding_all decide)⟩

/-- Counterexample to C9 as stated: with the 1-point obstacle `[(60, 51)]`
every endpoint position (the four corners and `(60, 51)`) is both the first
vertex of some wall and the second vertex of some wall — `(60, 51)` via the
degenerate obstacle wall — yet the update computation fails with a
`KeyError` (`none`), because the `elif` in `find_endpoints` leaves that
endpoint's `ends` slot empty. -/
theorem cast_rays_precondition_cex :
    (∀ e ∈ find_endpoints
        ((find_walls 100 100 [[((60 : ℚ), (51 : ℚ))]]).getD []),
      (∃ w ∈ (find_walls 100 100 [[((60 : ℚ), (51 : ℚ))]]).getD [],
        e.position = w.a) ∧
      (∃ w ∈ (find_walls 100 100 [[((60 : ℚ), (51 : ℚ))]]).getD [],
        e.position = w.b)) ∧
    lightCompute specGeom 100 100 [[((60 : ℚ), (51 : ℚ))]] 50 50 22500 =
      none := by
  constructor
  · with_unfolding_all decide
  · with_unfolding_all decide

lemma castStep_anchored (G : GeomModel) (walls : List Wall) (origin : Point)
    (maxRange : ℚ) (e : Endpoint) (edge : Option (Nat × ℚ))
    (rays : List Ray) (st : Option (Nat × ℚ) × List Ray)
    (h : castStep G walls origin maxRange e edge rays = some st)
    (hr : ∀ r ∈ rays, r.a = origin) :
    ∀ r ∈ st.2, r.a = origin := by
  unfold castStep at h
  by_cases hr0 : G.dist origin e.position > maxRange
  · rw [if_pos hr0] at h
    injection h with h'
    subst h'
    exact hr
  · rw [if_neg hr0] at h
    simp only [] at h
    split at h
    case _ =>
      split at h
      case h_1 => exact absurd h (by simp)
      case h_2 =>
        split at h
        case h_1 => exact absurd h (by simp)
        case h_2 =>
          split at h
          case h_1 => exact absurd h (by simp)
          case h_2 =>
            split at h
            case h_1 => exact absurd h (by simp)
            case h_2 =>
              injection h with h'
              subst h'
              intro r hmem
              repeat' split at hmem
              all_goals
                simp only [List.mem_append, List.mem_singleton] at hmem
                repeat' (first
                  | exact hr r hmem
                  | (subst hmem; rfl)
                  | (rcases hmem with hmem | hmem))
    case _ =>
      injection h with h'
      subst h'
      exact hr

lemma castLoop_anchored (G : GeomModel) (walls : List Wall) (origin : Point)
    (maxRange : ℚ) :
    ∀ (eps : List Endpoint) (edge : Option (Nat × ℚ)) (rays rays' : List Ray),
      (∀ r ∈ rays, r.a = origin) →
      castLoop G walls origin maxRange eps edge rays = some rays' →
      ∀ r ∈ rays', r.a = origin := by
  intro eps
  induction eps with
  | nil =>
      intro edge rays rays' hr h
      injection h with h'
      subst h'
      exact hr
  | cons e rest ih =>
      intro edge rays rays' hr h
      have hshow : castLoop G walls origin maxRange (e :: rest) edge rays =
          (match castStep G walls origin maxRange e edge rays with
            | none => none
            | some (edge', rays1) =>
                castLoop G walls origin maxRange rest edge' rays1) := rfl
      rw [hshow] at h
      cases hstep : castStep G walls origin maxRange e edge rays with
      | none =>
          rw [hstep] at h
          exact absurd h (by simp)
      | some st =>
          rw [hstep] at h
          exact ih st.1 st.2 rays'
            (castStep_anchored G walls origin maxRange e edge rays st hstep hr)
            h

/-- Every ray `cast_rays` emits starts at the light origin (primary, offset
and workaround rays alike) — this discharges the anchoring hypothesis of the
resolver theorems for every ray set the pipeline ever resolves. -/
lemma cast_rays_anchored (G : GeomModel) (walls : List Wall)
    (eps : List Endpoint) (origin : Point) (maxRange : ℚ) (rays' : List Ray)
    (h : cast_rays G walls eps origin maxRange = some rays') :
    ∀ r ∈ rays', r.a = origin :=
  castLoop_anchored G walls origin maxRange eps none [] rays'
    (fun r hr => absurd hr (List.not_mem_nil r)) h


/-- C4 is violated by the code: the membership guard compares the 2-tuple
`(origin, (0.0, 0.0))` against a list that only ever holds 4-tuples, so it
never fires, and one workaround ray toward `(0, 0)` is appended per emitted
endpoint.  In the bare 100×100 area with the light at `(50, 50)` two
endpoints are emitted, and the returned ray list contains exactly two rays
targeting `(0, 0)`. -/
theorem workaround_ray_duplicated :
    ((cast_rays specGeom ((find_walls 100 100 []).getD [])
        (sortByKey (fun e => specGeom.ang ((50 : ℚ), (50 : ℚ)) e.position)
          (find_endpoints ((find_walls 100 100 []).getD [])))
        ((50 : ℚ), (50 : ℚ)) 22500).getD []).countP
      (fun r => r.b == ((0 : ℚ), (0 : ℚ))) = 2 := by
  with_unfolding_all decide

/-- C3 is violated by the code: in the empty 100×100 area with the light at
`(99, 1)` (all four corners well within range), the computed visibility
polygon does not contain the corner `(0, 100)` at all — the blocking-edge
skip drops the ray toward it (the source's TODO admits the corner-detection
flaw), so the polygon is not the four corners of the area. -/
theorem empty_area_polygon_misses_corner :
    (lightCompute specGeom 100 100 [] 99 1 22500).map
      (fun res => decide (((0 : ℚ), (100 : ℚ)) ∈ res.2)) = some false := by
  with_unfolding_all decide
